import Mathlib

/-!
Shallow embedding of the `iotracer` Go package (tinkerator/iotracer): a
circular buffer of timestamped 64-bit mask/value samples, a change
notifier, and a VCD (value change dump) export pipeline.

Modelling conventions:
* `time.Time` is modelled as a `Nat` tick count; `now.After(s.When)` is `s.when < now`.
* `uint64` masks and values are `Nat`s; the bitwise operators `&&&`, `|||`,
  `^^^` agree with Go's on values below `2^64`, and the only place a 64-bit
  wrap matters (the `bit<<1` overflow terminating the signal loop in
  `cacheVCDDetail`) is modelled explicitly via `2^i % 2^64`.
* Go maps (`labels`, `changes`) are association lists; Go channels are
  `Sink` values holding a bounded buffer (`depth` = channel capacity), a
  non-blocking send appends when the buffer has room and drops otherwise.
* A method on a possibly-nil `*Trace` is modelled on `Option Trace`; an
  operation that would dereference the nil pointer returns `none`
  (a crash), a nil-guarded no-op returns its (unchanged) input.
-/

namespace IoTracer

/-- `Sample` holds a single trace entry (time, mask, value). -/
structure Sample where
  when : Nat
  mask : Nat
  value : Nat
  deriving Repr, DecidableEq, Inhabited

/-- `Event` indicates when a signal value changed and its new value. -/
structure Event where
  when : Nat
  On : Bool
  deriving Repr, DecidableEq

/-- A `Sink` models one buffered `chan Event` registered by `Watch`:
`id` identifies the channel, `depth` is its capacity, `buf` its pending
contents. -/
structure Sink where
  id : Nat
  depth : Nat
  buf : List Event
  deriving Repr, DecidableEq

/-- The mutable state of a `Trace` (the fields of the Go struct minus the
mutex, which a sequential embedding does not need). -/
structure Trace where
  app : String
  module : String
  samples : List Sample
  maxSamples : Nat
  cursor : Nat
  fullMask : Nat
  labels : List (Nat × String)
  changes : List (Nat × List Sink)
  deriving Repr, DecidableEq

/-- Errors returned by the package. -/
inductive Err where
  | invalidSignalIndex
  | unknownWatcher
  | noTraceData
  deriving Repr, DecidableEq

/-- `NewTrace` allocates a tracer; returns `none` (Go `nil`) when
`samples == 0`. -/
def NewTrace (app : String) (samples : Nat) : Option Trace :=
  if samples = 0 then none
  else some
    { app := if app = "" then "iotracer" else app
      module := ""
      samples := List.replicate samples default
      maxSamples := samples
      cursor := 0
      fullMask := 0
      labels := []
      changes := [] }

/-- Go map read `t.labels[i]` (zero value `""` when absent). -/
def labelOf (ls : List (Nat × String)) (i : Nat) : String :=
  match ls.find? (fun p => p.1 = i) with
  | some p => p.2
  | none => ""

/-- Non-blocking channel send: append when the buffer has room, drop
otherwise (the `select`/`default` in `SampleAt`). -/
def sinkSend (s : Sink) (e : Event) : Sink :=
  if s.buf.length < s.depth then { s with buf := s.buf ++ [e] } else s

/-- The notifier loop body of `SampleAt`: for every registered mask `m`
overlapping `delta`, send `Event{now, m&mask&value != 0}` to each of its
sinks. -/
def notify (changes : List (Nat × List Sink)) (delta now mask value : Nat) :
    List (Nat × List Sink) :=
  changes.map fun p =>
    if p.1 &&& delta = 0 then p
    else (p.1, p.2.map fun s => sinkSend s ⟨now, decide (p.1 &&& mask &&& value ≠ 0)⟩)

/-- The previously recorded sample slot `t.samples[(t.cursor + t.maxSamples - 1) % t.maxSamples]`. -/
def lastSlot (t : Trace) : Sample :=
  t.samples.getD ((t.cursor + t.maxSamples - 1) % t.maxSamples) default

/-- `SampleAt` on a non-nil trace: append a snapshot if it differs from the
previous one and is strictly newer, possibly signalling watchers. -/
def SampleAt (t : Trace) (now mask value : Nat) : Trace :=
  let s := lastSlot t
  if t.cursor ≠ 0 ∧ ((s.mask = mask ∧ s.value = value) ∨ ¬ s.when < now) then t
  else
    let samples := t.samples.set (t.cursor % t.maxSamples) ⟨now, mask, value⟩
    let delta := (s.mask &&& s.value) ^^^ (mask &&& value)
    let changes :=
      if t.cursor = 0 ∨ delta ≠ 0 then notify t.changes delta now mask value
      else t.changes
    { t with samples := samples, changes := changes,
             fullMask := t.fullMask ||| mask, cursor := t.cursor + 1 }

/-- Whether `SampleAt t now mask value` accepts the sample. -/
def accepts (t : Trace) (now mask value : Nat) : Prop :=
  t.cursor = 0 ∨ (lastSlot t).when < now ∧
    ¬ ((lastSlot t).mask = mask ∧ (lastSlot t).value = value)

instance (t : Trace) (now mask value : Nat) : Decidable (accepts t now mask value) := by
  unfold accepts; infer_instance

/-- `Module` sets the trace module name; a no-op on a nil trace. The result
is `some` (no crash) holding the possibly-updated trace. -/
def Module (t : Option Trace) (name : String) : Option (Option Trace) :=
  match t with
  | none => some none
  | some tr => some (some { tr with module := name })

/-- Go map write `labels[sig] = label` / `delete(labels, sig)`. -/
def setLabel (ls : List (Nat × String)) (sig : Nat) (label : String) :
    List (Nat × String) :=
  if label = "" then ls.filter (fun p => p.1 ≠ sig)
  else (ls.filter (fun p => p.1 ≠ sig)) ++ [(sig, label)]

/-- `Label` names a signal offset; nil-safe (returns the error without
dereferencing). Result is `some` (no crash) of (trace, error?). -/
def Label (t : Option Trace) (sig : Int) (label : String) :
    Option (Option Trace × Option Err) :=
  match t with
  | none => some (none, some .invalidSignalIndex)
  | some tr =>
      if sig < 0 ∨ 64 ≤ sig then some (some tr, some .invalidSignalIndex)
      else some (some { tr with labels := setLabel tr.labels sig.toNat label }, none)

/-- Go map update `t.changes[mask] = append(t.changes[mask], ch)`. -/
def addSink (cs : List (Nat × List Sink)) (mask : Nat) (s : Sink) :
    List (Nat × List Sink) :=
  if cs.any (fun p => p.1 = mask) then
    cs.map (fun p => if p.1 = mask then (p.1, p.2 ++ [s]) else p)
  else cs ++ [(mask, [s])]

/-- `Watch`: register a fresh buffered sink (identified by `newId`, the
fresh channel) under mask `1 <<< sig`; nil-safe. -/
def Watch (t : Option Trace) (sig : Int) (depth : Nat) (newId : Nat) :
    Option (Option Trace × Except Err Nat) :=
  match t with
  | none => some (none, .error .invalidSignalIndex)
  | some tr =>
      if sig < 0 ∨ 64 ≤ sig then some (some tr, .error .invalidSignalIndex)
      else
        some (some { tr with
          changes := addSink tr.changes (1 <<< sig.toNat) ⟨newId, depth, []⟩ },
          .ok newId)

/-- The inner loop of `Cancel` over one registration list: remove the first
sink with the given id (`append(chs[:i], chs[i+1:]...)` at the first match),
`none` when the id does not occur. -/
def removeFirst : List Sink → Nat → Option (List Sink)
  | [], _ => none
  | s :: ss, id =>
      if s.id = id then some ss else (removeFirst ss id).map (s :: ·)

/-- The search-and-remove loop of `Cancel`: find the first registration list
containing a sink with the given id, remove that sink; `none` when the id is
not registered anywhere. -/
def cancelScan (cs : List (Nat × List Sink)) (id : Nat) :
    Option (List (Nat × List Sink)) :=
  match cs with
  | [] => none
  | p :: rest =>
      match removeFirst p.2 id with
      | some chs => some ((p.1, chs) :: rest)
      | none => (cancelScan rest id).map (p :: ·)

/-- `Cancel` on a non-nil trace: remove and close the sink when found, else
`ErrUnknownWatcher`. -/
def Cancel (t : Trace) (id : Nat) : Trace × Option Err :=
  match cancelScan t.changes id with
  | some cs => ({ t with changes := cs }, none)
  | none => (t, some .unknownWatcher)

/-- `Cancel` on a possibly-nil trace. Unlike every other method, the Go code
has no `t == nil` guard: its first statement is `t.mu.Lock()`, which
dereferences the nil pointer, so the nil case is a crash (`none`). -/
def CancelN (t : Option Trace) (id : Nat) : Option (Trace × Option Err) :=
  match t with
  | none => none
  | some tr => some (Cancel tr id)

/-- `SampleAt` on a possibly-nil trace; nil-guarded no-op. -/
def SampleAtN (t : Option Trace) (now mask value : Nat) : Option (Option Trace) :=
  match t with
  | none => some none
  | some tr => some (some (SampleAt tr now mask value))

/-- `Sample` delegates to `SampleAt` with the current time; nil-safe because
`SampleAt` is. -/
def SampleN (t : Option Trace) (now mask value : Nat) : Option (Option Trace) :=
  SampleAtN t now mask value

/-- All sink ids registered in a changes map. -/
def sinkIds (cs : List (Nat × List Sink)) : List Nat :=
  (cs.map (fun p => p.2.map (fun s => s.id))).flatten

/-- `signal` pairs a single-bit mask with its VCD identifier and label. -/
structure Signal where
  mask : Nat
  ch : String
  lab : String
  deriving Repr, DecidableEq

/-- The digit list of `keyOf`'s do-while loop: least significant base-94
digit first, at least one digit. The first argument is structural fuel;
`j` shrinks by a factor of 94 each iteration, so `j + 1` iterations always
suffice and the fuel never runs out on the calls `keyOfDigits` makes. -/
def keyOfGo : Nat → Nat → List Nat
  | 0, _ => []
  | fuel + 1, j => j % 94 :: (if j / 94 = 0 then [] else keyOfGo fuel (j / 94))

/-- The digits `keyOf` produces for `j`. -/
def keyOfDigits (j : Nat) : List Nat := keyOfGo (j + 1) j

/-- `keyOf` represents `j` in the VCD identifier alphabet: base-94 digits
over the printable codes starting at 33, least significant digit first. -/
def keyOf (j : Nat) : String :=
  String.mk ((keyOfDigits j).map (fun c => Char.ofNat (33 + c)))

/-- The signal-assignment loop of `cacheVCDDetail`:
`for i, bit := 0, 1; bit != 0 && bit < fullMask; i, bit = i+1, bit<<1`.
`bit` is a `uint64`, so `bit != 0` is `2^i % 2^64 ≠ 0`; each set bit the
loop reaches consumes one identifier from the counter `j`. The first `Nat`
is structural fuel: the condition fails once `i` reaches 64, so `64 - i`
iterations always suffice and the fuel never runs out when `sigLoop`
supplies it. -/
def sigLoopGo (fullMask : Nat) (labels : List (Nat × String)) :
    Nat → Nat → Nat → List Signal × Nat
  | 0, _, j => ([], j)
  | fuel + 1, i, j =>
      if 2 ^ i % 2 ^ 64 ≠ 0 ∧ 2 ^ i % 2 ^ 64 < fullMask then
        if fullMask &&& 2 ^ i ≠ 0 then
          let lab := labelOf labels i
          let sig : Signal :=
            { mask := 2 ^ i, ch := keyOf j
              lab := if lab = "" then "sig" ++ toString i else lab }
          let rest := sigLoopGo fullMask labels fuel (i + 1) (j + 1)
          (sig :: rest.1, rest.2)
        else sigLoopGo fullMask labels fuel (i + 1) j
      else ([], j)

/-- The signal loop of `cacheVCDDetail` started at bit `i` with next free
identifier `j`. -/
def sigLoop (fullMask : Nat) (labels : List (Nat × String)) (i j : Nat) :
    List Signal × Nat :=
  sigLoopGo fullMask labels (64 - i) i j

/-- `VCDDetail` holds everything needed to dump one trace. -/
structure VCDDetail where
  app : String
  module : String
  fullMask : Nat
  samples : Nat
  working : List Sample
  start : Nat
  sigs : List Signal
  deriving Repr, DecidableEq

/-- `cacheVCDDetail` snapshots a trace for VCD generation; `index` is the
next free VCD signal index, the returned `Nat` the next free one after this
trace. -/
def cacheVCDDetail (t : Trace) (index : Nat) : VCDDetail × Nat :=
  let module := if t.module = "" then "ports" else t.module
  let cursor := t.cursor
  let samples := if cursor > t.maxSamples then t.maxSamples else cursor
  let start := (cursor + t.maxSamples - samples) % t.maxSamples
  let working :=
    if samples ≠ cursor then t.samples.drop start ++ t.samples.take start
    else t.samples.take samples
  let sj := sigLoop t.fullMask t.labels 0 index
  ({ app := t.app, module := module, fullMask := t.fullMask,
     samples := samples, working := working, start := start, sigs := sj.1 },
   sj.2)

/-- `Datum` is one emitted VCD change: a quantized stamp and a value line. -/
structure Datum where
  stamp : Nat
  line : String
  deriving Repr, DecidableEq

/-- One iteration of the base-case scan of `mergeVCD`: the datums emitted
for sample `s` at position `i`, given the previous iteration's
`lastVal`/`lastMask`. -/
def scanStep (sigs : List Signal) (earliest tScale : Nat)
    (lastVal lastMask : Nat) (i : Nat) (s : Sample) : List Datum :=
  let delta := lastVal ^^^ s.value
  let dMask := lastMask ^^^ s.mask
  let anyDelta := dMask ||| delta
  if i = 0 ∨ anyDelta ≠ 0 then
    let stamp := (s.when - earliest) / tScale
    sigs.filterMap fun sig =>
      if sig.mask &&& s.mask = 0 then
        if i = 0 ∨ sig.mask &&& dMask ≠ 0 then some ⟨stamp, "x" ++ sig.ch⟩
        else none
      else
        if i = 0 ∨ sig.mask &&& anyDelta ≠ 0 then
          some ⟨stamp, (if sig.mask &&& s.value ≠ 0 then "1" else "0") ++ sig.ch⟩
        else none
  else []

/-- The base-case loop of `mergeVCD` (`case 1:`), walking the working
samples with the running `lastVal`/`lastMask` state. -/
def scanGo (sigs : List Signal) (earliest tScale : Nat) :
    Nat → Nat → Nat → List Sample → List Datum
  | _, _, _, [] => []
  | lastVal, lastMask, i, s :: rest =>
      scanStep sigs earliest tScale lastVal lastMask i s ++
        scanGo sigs earliest tScale s.value s.mask (i + 1) rest

/-- The complete datum sequence the base case of `mergeVCD` emits for one
snapshot. -/
def scanDatums (v : VCDDetail) (earliest tScale : Nat) : List Datum :=
  scanGo v.sigs earliest tScale 0 0 0 v.working

/-- The two-way channel merge loop of `mergeVCD` (`default:`), as the
sequence of datums it forwards: repeatedly compare the heads and forward
the smaller stamp, left first on ties. The first `Nat` is structural fuel;
every comparison consumes one pending datum, so the total number of datums
suffices and the fuel never runs out when `mergeTwo` supplies it. -/
def mergeTwoGo : Nat → List Datum → List Datum → List Datum
  | _, [], bs => bs
  | _, a :: as', [] => a :: as'
  | 0, a :: as', b :: bs => a :: as' ++ b :: bs
  | fuel + 1, a :: as', b :: bs =>
      if a.stamp ≤ b.stamp then a :: mergeTwoGo fuel as' (b :: bs)
      else b :: mergeTwoGo fuel (a :: as') bs

/-- The merge loop applied to two complete pending sequences. -/
def mergeTwo (as' bs : List Datum) : List Datum :=
  mergeTwoGo (as'.length + bs.length) as' bs

/-- The recursion of `mergeVCD`: zero snapshots deliver nothing, one
snapshot delivers its scan, more are split at `(k+1)/2` and the halves
merged. The first `Nat` is structural fuel; each half is strictly shorter
than the split list, so `details.length` iterations always suffice and the
fuel never runs out when `mergeVCD` supplies it. -/
def mergeVCDGo (earliest tScale : Nat) : Nat → List VCDDetail → List Datum
  | _, [] => []
  | _, [v] => scanDatums v earliest tScale
  | 0, _ :: _ :: _ => []
  | fuel + 1, v :: w :: rest =>
      let l := v :: w :: rest
      let j := (l.length + 1) / 2
      mergeTwo (mergeVCDGo earliest tScale fuel (l.take j))
        (mergeVCDGo earliest tScale fuel (l.drop j))

/-- `mergeVCD` as the datum sequence it delivers. -/
def mergeVCD (earliest tScale : Nat) (details : List VCDDetail) : List Datum :=
  mergeVCDGo earliest tScale details.length details

/-- Number of VCD signals a trace contributes (how far `cacheVCDDetail`
advances the shared identifier counter). -/
def numSigs (t : Trace) : Nat := (sigLoop t.fullMask t.labels 0 0).1.length

/-- The per-trace selection loop of `ExportVCD`: snapshot each trace with
the running counter, skipping traces whose snapshot assigns no identifier
(`k == j`). -/
def exportSelect : List Trace → Nat → List VCDDetail × Nat
  | [], j => ([], j)
  | t :: rest, j =>
      let vk := cacheVCDDetail t j
      if vk.2 = j then exportSelect rest j
      else
        let dj := exportSelect rest vk.2
        (vk.1 :: dj.1, dj.2)

/-- The selection/validation phase of `ExportVCD`: the details list when
any trace contributed a signal, `ErrNoTraceData` otherwise. -/
def ExportVCDCheck (traces : List Trace) : Except Err (List VCDDetail) :=
  let dj := exportSelect traces 0
  if dj.2 = 0 then .error .noTraceData else .ok dj.1

/-- `cacheVCDDetail` with the trace state threaded through: the Go method
only reads the trace under its lock (every write targets the fresh
`VCDDetail`), so the state it hands back is the state it was given. -/
def cacheVCDDetailS (t : Trace) (index : Nat) : Trace × VCDDetail × Nat :=
  (t, cacheVCDDetail t index)

/-- The selection loop of `ExportVCD` with every touched trace state
threaded through (the only access `ExportVCD` makes to a trace is
`cacheVCDDetail`). -/
def exportSelectS : List Trace → Nat → List Trace × List VCDDetail × Nat
  | [], j => ([], [], j)
  | t :: rest, j =>
      let s := cacheVCDDetailS t j
      if s.2.2 = j then
        let r := exportSelectS rest j
        (s.1 :: r.1, r.2.1, r.2.2)
      else
        let r := exportSelectS rest s.2.2
        (s.1 :: r.1, s.2.1 :: r.2.1, r.2.2)

/-- `ExportVCD` with trace states threaded through: the traces it hands
back paired with the outcome of the selection phase. -/
def ExportVCDS (traces : List Trace) : List Trace × Except Err (List VCDDetail) :=
  let r := exportSelectS traces 0
  (r.1, if r.2.2 = 0 then .error .noTraceData else .ok r.2.1)

/-- `VCD` on a non-nil trace, with the trace state threaded through
(`VCD` delegates to `ExportVCD` over the single trace). -/
def VCDS (t : Trace) : Trace × Except Err (List VCDDetail) :=
  let r := ExportVCDS [t]
  (r.1.getD 0 t, r.2)

/-- Run a sequence of `SampleAt` calls against a trace. -/
def runTrace (t : Trace) : List (Nat × Nat × Nat) → Trace
  | [] => t
  | (now, m, v) :: rest => runTrace (SampleAt t now m v) rest

/-- The samples a sequence of `SampleAt` calls actually accepts. -/
def acceptedOf (t : Trace) : List (Nat × Nat × Nat) → List Sample
  | [] => []
  | (now, m, v) :: rest =>
      if accepts t now m v then
        Sample.mk now m v :: acceptedOf (SampleAt t now m v) rest
      else acceptedOf t rest

/-- All events sitting in the buffers of a changes map. -/
def allEvents (cs : List (Nat × List Sink)) : List Event :=
  ((cs.map (fun p => p.2.map Sink.buf)).flatten).flatten

/-- Token formatting shared by the spec's reading of the base-case scan:
`x<id>` when the bit is undefined in the sample's mask, else `0<id>`/`1<id>`
per the value bit. -/
def specToken (sig : Signal) (s : Sample) : String :=
  if sig.mask &&& s.mask = 0 then "x" ++ sig.ch
  else (if sig.mask &&& s.value ≠ 0 then "1" else "0") ++ sig.ch

/-- The claim's per-change-point emission, exactly as the spec words it:
every signal whose bit lies in `definedDelta|delta` (or every signal at the
first sample) produces one datum. -/
def claimEmit (sigs : List Signal) (earliest tScale : Nat)
    (first : Bool) (prev s : Sample) : List Datum :=
  let delta := prev.value ^^^ s.value
  let dDef := prev.mask ^^^ s.mask
  if first = true ∨ dDef ||| delta ≠ 0 then
    sigs.filterMap fun sig =>
      if first = true ∨ sig.mask &&& (dDef ||| delta) ≠ 0 then
        some ⟨(s.when - earliest) / tScale, specToken sig s⟩
      else none
  else []

/-- The amended per-change-point emission: as `claimEmit`, except that a
signal undefined in the sample's mask produces its `x` datum only when its
bit lies in `definedDelta` (a pure value flip under an unchanged undefined
bit emits nothing). -/
def amendedEmit (sigs : List Signal) (earliest tScale : Nat)
    (first : Bool) (prev s : Sample) : List Datum :=
  let delta := prev.value ^^^ s.value
  let dDef := prev.mask ^^^ s.mask
  if first = true ∨ dDef ||| delta ≠ 0 then
    sigs.filterMap fun sig =>
      if first = true ∨
          (if sig.mask &&& s.mask = 0 then sig.mask &&& dDef ≠ 0
           else sig.mask &&& (dDef ||| delta) ≠ 0) then
        some ⟨(s.when - earliest) / tScale, specToken sig s⟩
      else none
  else []

/-- Walk consecutive sample pairs with an emission function (non-first
samples). -/
def pairScanGo (emit : Bool → Sample → Sample → List Datum) :
    Sample → List Sample → List Datum
  | _, [] => []
  | prev, s :: rest => emit false prev s ++ pairScanGo emit s rest

/-- Walk an entire sample window with an emission function: the first sample
is compared against the implicit all-undefined prior state. -/
def pairScan (emit : Bool → Sample → Sample → List Datum) :
    List Sample → List Datum
  | [] => []
  | s :: rest => emit true ⟨0, 0, 0⟩ s ++ pairScanGo emit s rest

/-- The claim's datum sequence for one snapshot. -/
def claimScan (v : VCDDetail) (earliest tScale : Nat) : List Datum :=
  pairScan (claimEmit v.sigs earliest tScale) v.working

/-- The amended datum sequence for one snapshot. -/
def amendedScan (v : VCDDetail) (earliest tScale : Nat) : List Datum :=
  pairScan (amendedEmit v.sigs earliest tScale) v.working

/-- The ring-buffer invariant relating a trace state to the list `A` of
samples accepted so far: the cursor counts them, `fullMask` is the union of
their masks, the ring slots hold the most recent `min cursor capacity` of
them in chronological order, and their timestamps strictly increase. -/
def RingInv (cap : Nat) (t : Trace) (A : List Sample) : Prop :=
  t.maxSamples = cap ∧
  t.samples.length = cap ∧
  t.cursor = A.length ∧
  t.fullMask = A.foldl (fun acc s => acc ||| s.mask) 0 ∧
  (∀ k, k < min t.cursor cap →
    t.samples.getD ((t.cursor - 1 - k) % cap) default =
      A.getD (A.length - 1 - k) default) ∧
  List.Chain' (fun a b => a.when < b.when) A

/-! ## Basic facts about `SampleAt` -/

theorem sampleAt_of_not_accepts (t : Trace) (now mask value : Nat)
    (h : ¬ accepts t now mask value) : SampleAt t now mask value = t := by
  have hrej : t.cursor ≠ 0 ∧
      (((lastSlot t).mask = mask ∧ (lastSlot t).value = value) ∨
        ¬ (lastSlot t).when < now) := by
    unfold accepts at h
    tauto
  simp only [SampleAt, if_pos hrej]

theorem sampleAt_of_accepts (t : Trace) (now mask value : Nat)
    (h : accepts t now mask value) :
    SampleAt t now mask value =
      { t with
        samples := t.samples.set (t.cursor % t.maxSamples) ⟨now, mask, value⟩
        changes :=
          if t.cursor = 0 ∨
              ((lastSlot t).mask &&& (lastSlot t).value) ^^^ (mask &&& value) ≠ 0 then
            notify t.changes
              (((lastSlot t).mask &&& (lastSlot t).value) ^^^ (mask &&& value))
              now mask value
          else t.changes
        fullMask := t.fullMask ||| mask
        cursor := t.cursor + 1 } := by
  have hrej : ¬ (t.cursor ≠ 0 ∧
      (((lastSlot t).mask = mask ∧ (lastSlot t).value = value) ∨
        ¬ (lastSlot t).when < now)) := by
    unfold accepts at h
    tauto
  simp only [SampleAt, if_neg hrej]

theorem cursor_sampleAt_of_accepts (t : Trace) (now mask value : Nat)
    (h : accepts t now mask value) :
    (SampleAt t now mask value).cursor = t.cursor + 1 := by
  rw [sampleAt_of_accepts t now mask value h]

theorem cursor_le_sampleAt (t : Trace) (now mask value : Nat) :
    t.cursor ≤ (SampleAt t now mask value).cursor := by
  by_cases h : accepts t now mask value
  · rw [cursor_sampleAt_of_accepts t now mask value h]
    exact Nat.le_succ _
  · rw [sampleAt_of_not_accepts t now mask value h]

/-! ## Claim theorems, with the concrete inputs they are evaluated at -/

/-- C4: `SampleAt` accepts iff the trace is fresh (`cursor = 0`) or the
timestamp is strictly later than the last retained sample's and the
(mask, value) pair differs from it; a rejected call leaves the whole trace
state (ring, cursor, fullMask, sinks and their buffers) unchanged — in
particular it sends no event — and an accepted call advances the cursor. -/
theorem sampleAt_accept_iff_and_reject_noop (t : Trace) (now mask value : Nat) :
    (SampleAt t now mask value = t ↔
      ¬ (t.cursor = 0 ∨ ((lastSlot t).when < now ∧
          ¬ ((lastSlot t).mask = mask ∧ (lastSlot t).value = value)))) ∧
    (t.cursor = 0 ∨ ((lastSlot t).when < now ∧
        ¬ ((lastSlot t).mask = mask ∧ (lastSlot t).value = value)) →
      (SampleAt t now mask value).cursor = t.cursor + 1) := by
  have hacc : (t.cursor = 0 ∨ ((lastSlot t).when < now ∧
      ¬ ((lastSlot t).mask = mask ∧ (lastSlot t).value = value))) ↔
      accepts t now mask value := Iff.rfl
  constructor
  · constructor
    · intro heq
      rw [hacc]
      intro h
      have := cursor_sampleAt_of_accepts t now mask value h
      rw [heq] at this
      omega
    · intro h
      exact sampleAt_of_not_accepts t now mask value (hacc.symm.not.mp h)
  · intro h
    exact cursor_sampleAt_of_accepts t now mask value (hacc.mp h)

/-- A fresh four-slot trace, as built by `NewTrace "app" 4`. -/
def tFresh : Trace where
  app := "app"
  module := ""
  samples := List.replicate 4 default
  maxSamples := 4
  cursor := 0
  fullMask := 0
  labels := []
  changes := []

theorem sampleAt_accept_iff_and_reject_noop_witness :
    (tFresh.cursor = 0 ∨ ((lastSlot tFresh).when < 5 ∧
      ¬ ((lastSlot tFresh).mask = 1 ∧ (lastSlot tFresh).value = 1))) ∧
    (SampleAt tFresh 5 1 1).cursor = tFresh.cursor + 1 :=
  ⟨by decide, (sampleAt_accept_iff_and_reject_noop tFresh 5 1 1).2 (by decide)⟩

/-- C7: calls on a nil `*Trace` are safe no-ops or error returns for
`Module`, `Label`, `SampleAt`, `Sample` and `Watch`, but NOT for `Cancel`:
`Cancel` has no nil guard and immediately evaluates `t.mu.Lock()`, a nil
pointer dereference, so `Cancel` on a nil trace crashes (modelled as
`none`). This theorem evaluates the code at the failing input the claim
misses. -/
theorem nil_trace_calls (name label : String) (sig : Int)
    (now mask value depth newId id : Nat) :
    Module none name = some none ∧
    Label none sig label = some (none, some Err.invalidSignalIndex) ∧
    SampleAtN none now mask value = some none ∧
    SampleN none now mask value = some none ∧
    Watch none sig depth newId = some (none, Except.error Err.invalidSignalIndex) ∧
    CancelN none id = none :=
  ⟨rfl, rfl, rfl, rfl, rfl, rfl⟩

/-- A trace that has accepted one sample with mask `0b10`: its `fullMask`
is the power of two `2`. -/
def tPow2 : Trace := SampleAt tFresh 1 2 2

/-- C1: the claim states every bit set in `fullMask` receives a signal
entry, but the loop bound `bit != 0 && bit < v.fullMask` is strict, so
when `fullMask` is a power of two its (only) set bit is skipped: a trace
whose only recorded signal is bit 1 yields an empty signal list, consumes
no identifier, and `ExportVCD` over it alone even fails with
`ErrNoTraceData` despite the trace holding data. This theorem evaluates
the code at that failing input. -/
theorem fullMask_power_of_two_signal_dropped :
    NewTrace "app" 4 = some tFresh ∧
    tPow2.fullMask = 2 ∧
    Nat.testBit tPow2.fullMask 1 = true ∧
    (cacheVCDDetail tPow2 0).1.sigs = [] ∧
    (cacheVCDDetail tPow2 0).2 = 0 ∧
    ExportVCDCheck [tPow2] = Except.error Err.noTraceData := by
  refine ⟨rfl, by decide, by decide, by decide, by decide, by rfl⟩

theorem exportSelectS_fst (ts : List Trace) (j : Nat) :
    (exportSelectS ts j).1 = ts := by
  induction ts generalizing j with
  | nil => rfl
  | cons t rest ih =>
      simp only [exportSelectS, cacheVCDDetailS]
      split
      · simp [ih]
      · simp [ih]

/-- C10: exporting never mutates a trace. The snapshot pass
(`cacheVCDDetail`) only reads the trace under its lock, so with the trace
state threaded through every access, `ExportVCD`'s selection loop, the
full `ExportVCD` entry point, and `VCD` all hand back every trace exactly
as given — ring, cursor, fullMask, labels and subscriber registrations
included. -/
theorem export_never_mutates_trace (t : Trace) (idx j : Nat)
    (traces : List Trace) :
    (cacheVCDDetailS t idx).1 = t ∧
    (exportSelectS traces j).1 = traces ∧
    (ExportVCDS traces).1 = traces ∧
    (VCDS t).1 = t := by
  refine ⟨rfl, exportSelectS_fst traces j, exportSelectS_fst traces 0, ?_⟩
  show ((exportSelectS [t] 0).1.getD 0 t) = t
  rw [exportSelectS_fst]
  rfl

/-! ## The shared identifier counter and `ExportVCD`'s failure condition -/

theorem sigLoopGo_snd (fm : Nat) (ls : List (Nat × String)) :
    ∀ (fuel i j : Nat),
      (sigLoopGo fm ls fuel i j).2 = j + (sigLoopGo fm ls fuel i j).1.length := by
  intro fuel
  induction fuel with
  | zero => intro i j; simp [sigLoopGo]
  | succ fuel ih =>
      intro i j
      simp only [sigLoopGo]
      split
      · split
        · simp only [List.length_cons]
          rw [ih (i + 1) (j + 1)]
          omega
        · exact ih (i + 1) j
      · simp

theorem sigLoopGo_length_indep (fm : Nat) (ls : List (Nat × String)) :
    ∀ (fuel i j j' : Nat),
      (sigLoopGo fm ls fuel i j).1.length = (sigLoopGo fm ls fuel i j').1.length := by
  intro fuel
  induction fuel with
  | zero => intro i j j'; simp [sigLoopGo]
  | succ fuel ih =>
      intro i j j'
      simp only [sigLoopGo]
      split
      · split
        · simp only [List.length_cons]
          rw [ih (i + 1) (j + 1) (j' + 1)]
        · exact ih (i + 1) j j'
      · rfl

theorem cacheVCDDetail_snd (t : Trace) (j : Nat) :
    (cacheVCDDetail t j).2 = j + numSigs t := by
  show (sigLoop t.fullMask t.labels 0 j).2 = j + numSigs t
  unfold numSigs sigLoop
  rw [sigLoopGo_snd, sigLoopGo_length_indep t.fullMask t.labels (64 - 0) 0 j 0]

theorem exportSelect_le_snd (ts : List Trace) :
    ∀ j, j ≤ (exportSelect ts j).2 := by
  induction ts with
  | nil => intro j; exact Nat.le_refl j
  | cons t rest ih =>
      intro j
      simp only [exportSelect]
      split
      · exact ih j
      · exact Nat.le_trans (by rw [cacheVCDDetail_snd]; omega)
          (ih (cacheVCDDetail t j).2)

theorem exportSelect_snd_eq_iff (ts : List Trace) :
    ∀ j, (exportSelect ts j).2 = j ↔ ∀ t ∈ ts, numSigs t = 0 := by
  induction ts with
  | nil => intro j; simp [exportSelect]
  | cons t rest ih =>
      intro j
      simp only [exportSelect]
      by_cases h : (cacheVCDDetail t j).2 = j
      · rw [if_pos h]
        have hz : numSigs t = 0 := by
          have := cacheVCDDetail_snd t j
          omega
        simp [ih j, hz]
      · rw [if_neg h]
        constructor
        · intro hint
          exfalso
          have h1 := exportSelect_le_snd rest (cacheVCDDetail t j).2
          have h2 := cacheVCDDetail_snd t j
          omega
        · intro hall
          exfalso
          have := cacheVCDDetail_snd t j
          have := hall t (List.mem_cons_self t rest)
          omega

theorem exportSelect_fst_length (ts : List Trace) :
    ∀ j, (exportSelect ts j).1.length =
      (ts.filter (fun t => numSigs t != 0)).length := by
  induction ts with
  | nil => intro j; rfl
  | cons t rest ih =>
      intro j
      simp only [exportSelect, List.filter_cons]
      by_cases h : (cacheVCDDetail t j).2 = j
      · have hz : numSigs t = 0 := by
          have := cacheVCDDetail_snd t j
          omega
        rw [if_pos h]
        simp [hz, ih j]
      · have hz : numSigs t ≠ 0 := by
          intro h0
          exact h (by rw [cacheVCDDetail_snd, h0]; omega)
        rw [if_neg h]
        simp [hz, ih]

/-- C8: `ExportVCD` fails with `NoTraceData` exactly when no input trace
contributes a signal (zero traces included); a trace contributing zero
signals among contributing ones is merely skipped — the selected details
count exactly the traces with at least one signal. -/
theorem exportVCD_noTraceData_iff (traces : List Trace) :
    (ExportVCDCheck traces = Except.error Err.noTraceData ↔
      ∀ t ∈ traces, numSigs t = 0) ∧
    (∀ j, (exportSelect traces j).1.length =
      (traces.filter (fun t => numSigs t != 0)).length) := by
  refine ⟨?_, exportSelect_fst_length traces⟩
  show (if (exportSelect traces 0).2 = 0 then
      (Except.error Err.noTraceData : Except Err (List VCDDetail))
    else Except.ok (exportSelect traces 0).1) = Except.error Err.noTraceData ↔ _
  rw [← exportSelect_snd_eq_iff traces 0]
  by_cases h : (exportSelect traces 0).2 = 0
  · simp [h]
  · simp [h]

theorem exportVCD_noTraceData_iff_witness :
    (∀ t ∈ [tFresh], numSigs t = 0) ∧
    ExportVCDCheck [tFresh] = Except.error Err.noTraceData :=
  ⟨by decide, (exportVCD_noTraceData_iff [tFresh]).1.mpr (by decide)⟩

/-! ## Cancel -/

theorem sinkIds_cons (p : Nat × List Sink) (rest : List (Nat × List Sink)) :
    sinkIds (p :: rest) = p.2.map Sink.id ++ sinkIds rest := by
  simp [sinkIds]

theorem removeFirst_eq_none_iff (id : Nat) :
    ∀ ss : List Sink, removeFirst ss id = none ↔ id ∉ ss.map Sink.id := by
  intro ss
  induction ss with
  | nil => simp [removeFirst]
  | cons s ss ih =>
      simp only [removeFirst, List.map_cons, List.mem_cons]
      by_cases h : s.id = id
      · simp [h]
      · simp only [if_neg h, Option.map_eq_none']
        rw [ih]
        constructor
        · intro hn hmem
          rcases hmem with hmem | hmem
          · exact h hmem.symm
          · exact hn hmem
        · intro hn hmem
          exact hn (Or.inr hmem)

theorem removeFirst_count (id : Nat) :
    ∀ (ss ss' : List Sink), removeFirst ss id = some ss' →
      (ss.map Sink.id).count id = (ss'.map Sink.id).count id + 1 := by
  intro ss
  induction ss with
  | nil => intro ss' h; simp [removeFirst] at h
  | cons s ss ih =>
      intro ss' h
      simp only [removeFirst] at h
      by_cases hs : s.id = id
      · rw [if_pos hs] at h
        cases h
        simp [hs, List.count_cons]
      · rw [if_neg hs] at h
        rcases Option.map_eq_some'.mp h with ⟨ss'', hrec, rfl⟩
        simp only [List.map_cons, List.count_cons, ih ss'' hrec]
        omega

theorem cancelScan_eq_none_iff (id : Nat) :
    ∀ cs : List (Nat × List Sink), cancelScan cs id = none ↔ id ∉ sinkIds cs := by
  intro cs
  induction cs with
  | nil => simp [cancelScan, sinkIds]
  | cons p rest ih =>
      simp only [cancelScan, sinkIds_cons, List.mem_append]
      cases hrf : removeFirst p.2 id with
      | some chs =>
          have hidin : id ∈ p.2.map Sink.id := by
            by_contra hnin
            have hnone := (removeFirst_eq_none_iff id p.2).mpr hnin
            rw [hnone] at hrf
            simp at hrf
          simp [hidin]
      | none =>
          simp only [Option.map_eq_none']
          rw [ih]
          have hnmem := (removeFirst_eq_none_iff id p.2).mp hrf
          constructor
          · intro hn hmem
            rcases hmem with hmem | hmem
            · exact hnmem hmem
            · exact hn hmem
          · intro hn hmem
            exact hn (Or.inr hmem)

theorem cancelScan_count (id : Nat) :
    ∀ (cs cs' : List (Nat × List Sink)), cancelScan cs id = some cs' →
      (sinkIds cs).count id = (sinkIds cs').count id + 1 := by
  intro cs
  induction cs with
  | nil => intro cs' h; simp [cancelScan] at h
  | cons p rest ih =>
      intro cs' h
      simp only [cancelScan] at h
      cases hrf : removeFirst p.2 id with
      | some chs =>
          rw [hrf] at h
          cases h
          simp only [sinkIds_cons, List.count_append]
          rw [removeFirst_count id p.2 chs hrf]
          omega
      | none =>
          rw [hrf] at h
          rcases Option.map_eq_some'.mp h with ⟨rest', hrec, rfl⟩
          simp only [sinkIds_cons, List.count_append, ih rest' hrec]
          omega

theorem sinkSend_id (s : Sink) (e : Event) : (sinkSend s e).id = s.id := by
  unfold sinkSend
  split <;> rfl

theorem sinkIds_notify (cs : List (Nat × List Sink)) (delta now mask value : Nat) :
    sinkIds (notify cs delta now mask value) = sinkIds cs := by
  unfold sinkIds notify
  rw [List.map_map]
  congr 1
  apply List.map_congr_left
  intro p _
  by_cases h : p.1 &&& delta = 0
  · simp [h]
  · simp [h, List.map_map, Function.comp_def, sinkSend_id]

theorem sinkIds_sampleAt (t : Trace) (now mask value : Nat) :
    sinkIds (SampleAt t now mask value).changes = sinkIds t.changes := by
  by_cases h : accepts t now mask value
  · rw [sampleAt_of_accepts t now mask value h]
    show sinkIds (if _ then notify _ _ _ _ _ else t.changes) = _
    split
    · exact sinkIds_notify _ _ _ _ _
    · rfl
  · rw [sampleAt_of_not_accepts t now mask value h]

/-- C9: `Cancel` on a handle registered (once) removes that sink, so no
further sample can ever deliver an event to it, and a second `Cancel` on
the same handle returns `ErrUnknownWatcher` leaving the trace unchanged. -/
theorem cancel_removes_sink_and_second_cancel_fails (t : Trace) (id : Nat)
    (h : (sinkIds t.changes).count id = 1) :
    (Cancel t id).2 = none ∧
    id ∉ sinkIds (Cancel t id).1.changes ∧
    Cancel (Cancel t id).1 id = ((Cancel t id).1, some Err.unknownWatcher) ∧
    (∀ now mask value,
      id ∉ sinkIds ((SampleAt (Cancel t id).1 now mask value).changes)) := by
  have hmem : id ∈ sinkIds t.changes := by
    have hpos : 0 < (sinkIds t.changes).count id := by omega
    exact List.count_pos_iff.mp hpos
  cases hscan : cancelScan t.changes id with
  | none => exact absurd hmem ((cancelScan_eq_none_iff id t.changes).mp hscan)
  | some cs' =>
      have hres : Cancel t id = ({ t with changes := cs' }, none) := by
        unfold Cancel
        rw [hscan]
      have hcount : (sinkIds cs').count id = 0 := by
        have := cancelScan_count id t.changes cs' hscan
        omega
      have hnot : id ∉ sinkIds cs' := by
        intro hmem'
        have hpos : 0 < (sinkIds cs').count id := List.count_pos_iff.mpr hmem'
        omega
      have hscan2 : cancelScan cs' id = none :=
        (cancelScan_eq_none_iff id cs').mpr hnot
      refine ⟨by rw [hres], by rw [hres]; exact hnot, ?_, ?_⟩
      · rw [hres]
        unfold Cancel
        rw [hscan2]
      · intro now mask value
        rw [hres, sinkIds_sampleAt]
        exact hnot

/-- The trace `Watch (NewTrace "app" 4) 0 2` produces when the fresh
channel is id 7: one sink of depth 2 under mask 1. -/
def tWatched : Trace :=
  { tFresh with changes := [(1, [⟨7, 2, []⟩])] }

theorem cancel_removes_sink_and_second_cancel_fails_witness :
    Watch (some tFresh) 0 2 7 = some (some tWatched, Except.ok 7) ∧
    (sinkIds tWatched.changes).count 7 = 1 ∧
    (Cancel tWatched 7).2 = none ∧
    7 ∉ sinkIds (Cancel tWatched 7).1.changes ∧
    Cancel (Cancel tWatched 7).1 7 = ((Cancel tWatched 7).1, some Err.unknownWatcher) ∧
    7 ∉ sinkIds ((SampleAt (Cancel tWatched 7).1 3 1 1).changes) :=
  ⟨by rfl, by decide,
    (cancel_removes_sink_and_second_cancel_fails tWatched 7 (by decide)).1,
    (cancel_removes_sink_and_second_cancel_fails tWatched 7 (by decide)).2.1,
    (cancel_removes_sink_and_second_cancel_fails tWatched 7 (by decide)).2.2.1,
    (cancel_removes_sink_and_second_cancel_fails tWatched 7 (by decide)).2.2.2 3 1 1⟩

/-! ## The change notifier -/

/-- C3 counterexample: on the first-ever accepted sample the notifier still
filters registered masks by `m & delta` with
`delta = (prevMask & prevValue) XOR (mask & value)`, and the previous state
is all-zero, so a watched bit whose first effective state is `false`
(here mask 1, value 0) gets NO event even though its sink has room —
contradicting the claim that every watched mask is treated as affected on
the first sample. -/
theorem first_sample_watcher_gets_no_event :
    accepts tWatched 5 1 0 ∧
    (SampleAt tWatched 5 1 0).cursor = 1 ∧
    (SampleAt tWatched 5 1 0).changes = [(1, [⟨7, 2, []⟩])] ∧
    allEvents (SampleAt tWatched 5 1 0).changes = [] := by
  refine ⟨by decide, by decide, by decide, by decide⟩

/-- C3 (amended): on every accepted sample — the first one included —
exactly the watched masks overlapping
`delta = (prevMask & prevValue) XOR (mask & value)` (with the previous
state read from the last ring slot, all-zero on a fresh trace) receive one
event per registered sink, carrying the sample's timestamp and the new
boolean state of the watched bit, appended only when the sink's buffer has
room; every other registration is left untouched. -/
theorem sampleAt_notifies_exactly_delta_overlaps (t : Trace)
    (now mask value : Nat) (hacc : accepts t now mask value)
    (k : Nat) (hk : k < t.changes.length) :
    (SampleAt t now mask value).changes.getD k (0, []) =
      (if (t.changes.getD k (0, [])).1 &&&
          (((lastSlot t).mask &&& (lastSlot t).value) ^^^ (mask &&& value)) ≠ 0 then
        ((t.changes.getD k (0, [])).1,
          (t.changes.getD k (0, [])).2.map fun s =>
            sinkSend s ⟨now, decide ((t.changes.getD k (0, [])).1 &&& mask &&& value ≠ 0)⟩)
      else t.changes.getD k (0, [])) := by
  rw [sampleAt_of_accepts t now mask value hacc]
  show (if t.cursor = 0 ∨ _ ≠ 0 then notify t.changes _ now mask value
      else t.changes).getD k (0, []) = _
  set delta := ((lastSlot t).mask &&& (lastSlot t).value) ^^^ (mask &&& value) with hdelta
  by_cases houter : t.cursor = 0 ∨ delta ≠ 0
  · rw [if_pos houter]
    have hk' : k < (notify t.changes delta now mask value).length := by
      simpa [notify] using hk
    rw [List.getD_eq_getElem _ _ hk', List.getD_eq_getElem _ _ hk]
    simp only [notify, List.getElem_map]
    by_cases hz : t.changes[k].1 &&& delta = 0
    · simp [notify, hz]
    · simp [notify, hz]
  · rw [if_neg houter]
    push_neg at houter
    rw [if_neg (by simp [houter.2])]

theorem sampleAt_notifies_exactly_delta_overlaps_witness :
    accepts tWatched 5 1 1 ∧
    0 < tWatched.changes.length ∧
    (SampleAt tWatched 5 1 1).changes.getD 0 (0, []) =
      (1, [⟨7, 2, [⟨5, true⟩]⟩]) :=
  ⟨by decide, by decide,
    (sampleAt_notifies_exactly_delta_overlaps tWatched 5 1 1 (by decide) 0
      (by decide)).trans (by decide)⟩

/-! ## The base-case scan of `mergeVCD` against the spec's wording -/

theorem scanStep_zero_eq (sigs : List Signal) (e u : Nat) (s : Sample) :
    scanStep sigs e u 0 0 0 s = amendedEmit sigs e u true ⟨0, 0, 0⟩ s := by
  simp only [scanStep, amendedEmit, true_or, if_pos, specToken]
  apply List.filterMap_congr
  intro sig _
  by_cases h : sig.mask &&& s.mask = 0
  · simp [h]
  · simp [h]

theorem scanStep_succ_eq (sigs : List Signal) (e u : Nat) (n : Nat)
    (prev s : Sample) :
    scanStep sigs e u prev.value prev.mask (n + 1) s =
      amendedEmit sigs e u false prev s := by
  simp only [scanStep, amendedEmit, Nat.succ_ne_zero, false_or,
    Bool.false_eq_true, specToken]
  by_cases houter : (prev.mask ^^^ s.mask) ||| (prev.value ^^^ s.value) ≠ 0
  · rw [if_pos houter, if_pos houter]
    apply List.filterMap_congr
    intro sig _
    by_cases h : sig.mask &&& s.mask = 0
    · simp [h]
    · simp [h]
  · rw [if_neg houter, if_neg houter]

theorem scanGo_eq_pairScanGo (sigs : List Signal) (e u : Nat) :
    ∀ (rest : List Sample) (prev : Sample) (n : Nat),
      scanGo sigs e u prev.value prev.mask (n + 1) rest =
        pairScanGo (amendedEmit sigs e u) prev rest := by
  intro rest
  induction rest with
  | nil => intro prev n; rfl
  | cons s rest ih =>
      intro prev n
      show scanStep sigs e u prev.value prev.mask (n + 1) s ++
          scanGo sigs e u s.value s.mask (n + 2) rest = _
      rw [scanStep_succ_eq sigs e u n prev s, ih s (n + 1)]
      rfl

/-- C2 (amended): the base-case scan emits, at each change point, one datum
per signal whose bit lies in `definedDelta|delta` when the signal is
defined in the sample's mask, but only per signal whose bit lies in
`definedDelta` when it is undefined (every signal at the first sample);
each datum carries quantized stamp `(sampleTime - earliest) / timeUnit`
and token `x<id>` when undefined, else `0<id>`/`1<id>` per the value bit. -/
theorem scanDatums_eq_amendedScan (v : VCDDetail) (e u : Nat) :
    scanDatums v e u = amendedScan v e u := by
  unfold scanDatums amendedScan pairScan
  cases hw : v.working with
  | nil => rfl
  | cons s rest =>
      show scanStep v.sigs e u 0 0 0 s ++ scanGo v.sigs e u s.value s.mask 1 rest = _
      rw [scanStep_zero_eq v.sigs e u s, scanGo_eq_pairScanGo v.sigs e u rest s 0]

/-- The snapshot of the C2 counterexample trace: three retained samples
(mask 0b11 value 0b01, then mask 0b10 value 0b01, then mask 0b10 value
0b00) over two signals. Between the last two samples only the value bit of
the (undefined) signal 0 flips. -/
def vScanCex : VCDDetail where
  app := "iotracer"
  module := "ports"
  fullMask := 3
  samples := 3
  working := [Sample.mk 0 3 1, Sample.mk 1 2 1, Sample.mk 2 2 0]
  start := 0
  sigs := (sigLoop 3 [] 0 0).1

/-- C2 counterexample: at the third sample `delta = 1`, `definedDelta = 0`;
the claim demands an `x` datum for (undefined) signal 0, whose bit lies in
`definedDelta|delta`, but the code emits `x` only for bits in
`definedDelta`, so the scan ends after the stamp-1 datum and differs from
the claim's sequence. -/
theorem scanDatums_ne_claimScan :
    scanDatums vScanCex 0 1 =
      [⟨0, "1!"⟩, ⟨0, "0\""⟩, ⟨1, "x!"⟩] ∧
    claimScan vScanCex 0 1 =
      [⟨0, "1!"⟩, ⟨0, "0\""⟩, ⟨1, "x!"⟩, ⟨2, "x!"⟩] ∧
    scanDatums vScanCex 0 1 ≠ claimScan vScanCex 0 1 := by
  refine ⟨by decide, by decide, by decide⟩

/-! ## The merge loop: ordering, stability, fairness on ties -/

theorem mergeTwoGo_fuel_eq :
    ∀ (fuel fuel' : Nat) (as' bs : List Datum),
      as'.length + bs.length ≤ fuel → as'.length + bs.length ≤ fuel' →
      mergeTwoGo fuel as' bs = mergeTwoGo fuel' as' bs := by
  intro fuel
  induction fuel with
  | zero =>
      intro fuel' as' bs h h'
      match as', bs with
      | [], bs => cases fuel' <;> rfl
      | a :: as', [] => cases fuel' <;> rfl
      | a :: as', b :: bs => simp at h
  | succ fuel ih =>
      intro fuel' as' bs h h'
      match as', bs with
      | [], bs => cases fuel' <;> rfl
      | a :: as', [] => cases fuel' <;> rfl
      | a :: as', b :: bs =>
          match fuel' with
          | 0 => simp at h'
          | fuel' + 1 =>
              show (if a.stamp ≤ b.stamp then a :: mergeTwoGo fuel as' (b :: bs)
                  else b :: mergeTwoGo fuel (a :: as') bs) =
                (if a.stamp ≤ b.stamp then a :: mergeTwoGo fuel' as' (b :: bs)
                  else b :: mergeTwoGo fuel' (a :: as') bs)
              simp only [List.length_cons] at h h'
              split
              · rw [ih fuel' as' (b :: bs) (by simp; omega) (by simp; omega)]
              · rw [ih fuel' (a :: as') bs (by simp; omega) (by simp; omega)]

theorem mergeTwoGo_succ_cons_cons (fuel : Nat) (a b : Datum)
    (as' bs : List Datum) :
    mergeTwoGo (fuel + 1) (a :: as') (b :: bs) =
      if a.stamp ≤ b.stamp then a :: mergeTwoGo fuel as' (b :: bs)
      else b :: mergeTwoGo fuel (a :: as') bs := rfl

theorem mergeTwoGo_nil_left (fuel : Nat) (bs : List Datum) :
    mergeTwoGo fuel [] bs = bs := by
  cases fuel <;> rfl

theorem mergeTwoGo_nil_right (fuel : Nat) (a : Datum) (as' : List Datum) :
    mergeTwoGo fuel (a :: as') [] = a :: as' := by
  cases fuel <;> rfl

theorem mergeTwo_nil_left (bs : List Datum) : mergeTwo [] bs = bs :=
  mergeTwoGo_nil_left _ bs

theorem mergeTwo_nil_right (as' : List Datum) : mergeTwo as' [] = as' := by
  cases as' with
  | nil => exact mergeTwoGo_nil_left _ []
  | cons a as' => exact mergeTwoGo_nil_right _ a as'

theorem mergeTwo_cons_cons (a b : Datum) (as' bs : List Datum) :
    mergeTwo (a :: as') (b :: bs) =
      if a.stamp ≤ b.stamp then a :: mergeTwo as' (b :: bs)
      else b :: mergeTwo (a :: as') bs := by
  have h1 : (a :: as').length + (b :: bs).length =
      as'.length + (b :: bs).length + 1 := by
    simp only [List.length_cons]
    omega
  show mergeTwoGo ((a :: as').length + (b :: bs).length) (a :: as') (b :: bs) = _
  rw [h1, mergeTwoGo_succ_cons_cons]
  split
  · rfl
  · rw [mergeTwoGo_fuel_eq (as'.length + (b :: bs).length)
      ((a :: as').length + bs.length) (a :: as') bs
      (by simp only [List.length_cons]; omega) (by simp only [List.length_cons]; omega)]
    rfl

theorem mergeTwo_perm :
    ∀ (as' bs : List Datum), List.Perm (mergeTwo as' bs) (as' ++ bs) := by
  have go : ∀ (n : Nat) (as' bs : List Datum), as'.length + bs.length ≤ n →
      List.Perm (mergeTwo as' bs) (as' ++ bs) := by
    intro n
    induction n with
    | zero =>
        intro as' bs h
        match as', bs with
        | [], bs => simp [mergeTwo_nil_left]
        | a :: as', [] => simp [mergeTwo_nil_right]
        | a :: as', b :: bs => simp at h
    | succ n ih =>
        intro as' bs h
        match as', bs with
        | [], bs => simp [mergeTwo_nil_left]
        | a :: as', [] => simp [mergeTwo_nil_right]
        | a :: as', b :: bs =>
            rw [mergeTwo_cons_cons]
            simp only [List.length_cons] at h
            split
            · exact (ih as' (b :: bs) (by simp; omega)).cons a
            · exact ((ih (a :: as') bs (by simp; omega)).cons b).trans
                List.perm_middle.symm
  intro as' bs
  exact go (as'.length + bs.length) as' bs (Nat.le_refl _)

theorem mem_mergeTwo {d : Datum} {as' bs : List Datum} :
    d ∈ mergeTwo as' bs ↔ d ∈ as' ∨ d ∈ bs := by
  rw [(mergeTwo_perm as' bs).mem_iff, List.mem_append]

theorem mergeTwo_pairwise :
    ∀ (as' bs : List Datum),
      as'.Pairwise (fun d₁ d₂ => d₁.stamp ≤ d₂.stamp) →
      bs.Pairwise (fun d₁ d₂ => d₁.stamp ≤ d₂.stamp) →
      (mergeTwo as' bs).Pairwise (fun d₁ d₂ => d₁.stamp ≤ d₂.stamp) := by
  have go : ∀ (n : Nat) (as' bs : List Datum), as'.length + bs.length ≤ n →
      as'.Pairwise (fun d₁ d₂ => d₁.stamp ≤ d₂.stamp) →
      bs.Pairwise (fun d₁ d₂ => d₁.stamp ≤ d₂.stamp) →
      (mergeTwo as' bs).Pairwise (fun d₁ d₂ => d₁.stamp ≤ d₂.stamp) := by
    intro n
    induction n with
    | zero =>
        intro as' bs h ha hb
        match as', bs with
        | [], bs => rw [mergeTwo_nil_left]; exact hb
        | a :: as', [] => rw [mergeTwo_nil_right]; exact ha
        | a :: as', b :: bs => simp at h
    | succ n ih =>
        intro as' bs h ha hb
        match as', bs with
        | [], bs => rw [mergeTwo_nil_left]; exact hb
        | a :: as', [] => rw [mergeTwo_nil_right]; exact ha
        | a :: as', b :: bs =>
            rw [mergeTwo_cons_cons]
            simp only [List.length_cons] at h
            rcases List.pairwise_cons.mp ha with ⟨hahead, hatail⟩
            rcases List.pairwise_cons.mp hb with ⟨hbhead, hbtail⟩
            split
            · rename_i hle
              refine List.pairwise_cons.mpr ⟨?_, ih as' (b :: bs) (by simp; omega) hatail hb⟩
              intro y hy
              rcases mem_mergeTwo.mp hy with hy | hy
              · exact hahead y hy
              · rcases List.mem_cons.mp hy with rfl | hy
                · exact hle
                · exact Nat.le_trans hle (hbhead y hy)
            · rename_i hgt
              have hble : b.stamp ≤ a.stamp := Nat.le_of_not_le hgt
              refine List.pairwise_cons.mpr ⟨?_, ih (a :: as') bs (by simp; omega) ha hbtail⟩
              intro y hy
              rcases mem_mergeTwo.mp hy with hy | hy
              · rcases List.mem_cons.mp hy with rfl | hy
                · exact hble
                · exact Nat.le_trans hble (hahead y hy)
              · exact hbhead y hy
  intro as' bs
  exact go (as'.length + bs.length) as' bs (Nat.le_refl _)

theorem left_sublist_mergeTwo :
    ∀ (as' bs : List Datum), as'.Sublist (mergeTwo as' bs) := by
  have go : ∀ (n : Nat) (as' bs : List Datum), as'.length + bs.length ≤ n →
      as'.Sublist (mergeTwo as' bs) := by
    intro n
    induction n with
    | zero =>
        intro as' bs h
        match as', bs with
        | [], bs => exact List.nil_sublist _
        | a :: as', [] => rw [mergeTwo_nil_right]
        | a :: as', b :: bs => simp at h
    | succ n ih =>
        intro as' bs h
        match as', bs with
        | [], bs => exact List.nil_sublist _
        | a :: as', [] => rw [mergeTwo_nil_right]
        | a :: as', b :: bs =>
            rw [mergeTwo_cons_cons]
            simp only [List.length_cons] at h
            split
            · exact (ih as' (b :: bs) (by simp; omega)).cons₂ a
            · exact (ih (a :: as') bs (by simp; omega)).cons b
  intro as' bs
  exact go (as'.length + bs.length) as' bs (Nat.le_refl _)

theorem right_sublist_mergeTwo :
    ∀ (as' bs : List Datum), bs.Sublist (mergeTwo as' bs) := by
  have go : ∀ (n : Nat) (as' bs : List Datum), as'.length + bs.length ≤ n →
      bs.Sublist (mergeTwo as' bs) := by
    intro n
    induction n with
    | zero =>
        intro as' bs h
        match as', bs with
        | [], bs => rw [mergeTwo_nil_left]
        | a :: as', [] => exact List.nil_sublist _
        | a :: as', b :: bs => simp at h
    | succ n ih =>
        intro as' bs h
        match as', bs with
        | [], bs => rw [mergeTwo_nil_left]
        | a :: as', [] => exact List.nil_sublist _
        | a :: as', b :: bs =>
            rw [mergeTwo_cons_cons]
            simp only [List.length_cons] at h
            split
            · exact (ih as' (b :: bs) (by simp; omega)).cons a
            · exact (ih (a :: as') bs (by simp; omega)).cons₂ b
  intro as' bs
  exact go (as'.length + bs.length) as' bs (Nat.le_refl _)

theorem mergeVCDGo_pairwise (e u : Nat) :
    ∀ (fuel : Nat) (details : List VCDDetail), details.length ≤ fuel →
      (∀ v ∈ details, (scanDatums v e u).Pairwise (fun d₁ d₂ => d₁.stamp ≤ d₂.stamp)) →
      (mergeVCDGo e u fuel details).Pairwise (fun d₁ d₂ => d₁.stamp ≤ d₂.stamp) := by
  intro fuel
  induction fuel with
  | zero =>
      intro details h hall
      match details with
      | [] => exact List.Pairwise.nil
      | [v] => simp at h
      | v :: w :: rest => simp at h
  | succ fuel ih =>
      intro details h hall
      match details with
      | [] => exact List.Pairwise.nil
      | [v] => exact hall v (by simp)
      | v :: w :: rest =>
          show (mergeTwo
            (mergeVCDGo e u fuel ((v :: w :: rest).take (((v :: w :: rest).length + 1) / 2)))
            (mergeVCDGo e u fuel ((v :: w :: rest).drop (((v :: w :: rest).length + 1) / 2)))).Pairwise _
          simp only [List.length_cons] at h
          apply mergeTwo_pairwise
          · apply ih
            · simp only [List.length_take, List.length_cons]
              omega
            · intro x hx
              exact hall x ((List.take_sublist _ _).subset hx)
          · apply ih
            · simp only [List.length_drop, List.length_cons]
              omega
            · intro x hx
              exact hall x ((List.drop_sublist _ _).subset hx)

theorem mergeVCDGo_scan_sublist (e u : Nat) :
    ∀ (fuel : Nat) (details : List VCDDetail), details.length ≤ fuel →
      ∀ v ∈ details, (scanDatums v e u).Sublist (mergeVCDGo e u fuel details) := by
  intro fuel
  induction fuel with
  | zero =>
      intro details h v hv
      match details with
      | [] => simp at hv
      | [w] => simp at h
      | w :: w' :: rest => simp at h
  | succ fuel ih =>
      intro details h v hv
      match details, hv with
      | [w], hv =>
          have hveq : v = w := by simpa using hv
          subst hveq
          exact List.Sublist.refl _
      | w :: w' :: rest, hv =>
          show (scanDatums v e u).Sublist (mergeTwo
            (mergeVCDGo e u fuel ((w :: w' :: rest).take (((w :: w' :: rest).length + 1) / 2)))
            (mergeVCDGo e u fuel ((w :: w' :: rest).drop (((w :: w' :: rest).length + 1) / 2))))
          simp only [List.length_cons] at h
          have hsplit : v ∈ (w :: w' :: rest).take (((w :: w' :: rest).length + 1) / 2) ++
              (w :: w' :: rest).drop (((w :: w' :: rest).length + 1) / 2) := by
            rw [List.take_append_drop]
            exact hv
          rcases List.mem_append.mp hsplit with hmem | hmem
          · exact (ih _ (by simp only [List.length_take, List.length_cons]; omega)
              v hmem).trans (left_sublist_mergeTwo _ _)
          · exact (ih _ (by simp only [List.length_drop, List.length_cons]; omega)
              v hmem).trans (right_sublist_mergeTwo _ _)

/-- C5: when every snapshot's scan sequence is non-decreasing in quantized
stamp, the merged output is non-decreasing; each snapshot's datums appear
in the merged output in their original relative order (as a sublist); and
when the two merged sides' pending datums have equal stamps, the left one
is forwarded first. -/
theorem mergeVCD_sorted_stable_left_tie (e u : Nat) (details : List VCDDetail)
    (h : ∀ v ∈ details,
      (scanDatums v e u).Pairwise (fun d₁ d₂ => d₁.stamp ≤ d₂.stamp)) :
    (mergeVCD e u details).Pairwise (fun d₁ d₂ => d₁.stamp ≤ d₂.stamp) ∧
    (∀ v ∈ details, (scanDatums v e u).Sublist (mergeVCD e u details)) ∧
    (∀ (a b : Datum) (as' bs : List Datum), a.stamp = b.stamp →
      mergeTwo (a :: as') (b :: bs) = a :: mergeTwo as' (b :: bs)) := by
  refine ⟨mergeVCDGo_pairwise e u details.length details (Nat.le_refl _) h,
    fun v hv => mergeVCDGo_scan_sublist e u details.length details (Nat.le_refl _) v hv,
    fun a b as' bs hab => ?_⟩
  rw [mergeTwo_cons_cons, if_pos (Nat.le_of_eq hab)]

/-- The first snapshot of the C5 evaluation: one signal `!`, a rise at
stamp 0 and a fall at stamp 2. -/
def vMergeA : VCDDetail where
  app := "a"
  module := "ports"
  fullMask := 1
  samples := 2
  working := [Sample.mk 0 1 1, Sample.mk 2 1 0]
  start := 0
  sigs := [⟨1, "!", "sig0"⟩]

/-- The second snapshot of the C5 evaluation: one signal `"`, a rise at
stamp 1. -/
def vMergeB : VCDDetail where
  app := "b"
  module := "ports"
  fullMask := 1
  samples := 1
  working := [Sample.mk 1 1 1]
  start := 0
  sigs := [⟨1, "\"", "sig0"⟩]

theorem mergeVCD_sorted_stable_left_tie_witness :
    (∀ v ∈ [vMergeA, vMergeB],
      (scanDatums v 0 1).Pairwise (fun d₁ d₂ => d₁.stamp ≤ d₂.stamp)) ∧
    (mergeVCD 0 1 [vMergeA, vMergeB]).Pairwise (fun d₁ d₂ => d₁.stamp ≤ d₂.stamp) ∧
    (scanDatums vMergeA 0 1).Sublist (mergeVCD 0 1 [vMergeA, vMergeB]) ∧
    mergeTwo [Datum.mk 1 "0!"] [Datum.mk 1 "1\""] =
      Datum.mk 1 "0!" :: mergeTwo [] [Datum.mk 1 "1\""] :=
  ⟨by decide,
    (mergeVCD_sorted_stable_left_tie 0 1 [vMergeA, vMergeB] (by decide)).1,
    (mergeVCD_sorted_stable_left_tie 0 1 [vMergeA, vMergeB] (by decide)).2.1
      vMergeA (by decide),
    (mergeVCD_sorted_stable_left_tie 0 1 [vMergeA, vMergeB] (by decide)).2.2
      (Datum.mk 1 "0!") (Datum.mk 1 "1\"") [] [] rfl⟩

/-! ## The ring-buffer invariant -/

theorem RingInv_init (app : String) (cap : Nat) (t0 : Trace)
    (h0 : NewTrace app cap = some t0) : RingInv cap t0 [] := by
  unfold NewTrace at h0
  by_cases hc : cap = 0
  · rw [if_pos hc] at h0
    cases h0
  · rw [if_neg hc] at h0
    cases h0
    refine ⟨rfl, by simp, rfl, rfl, ?_, List.chain'_nil⟩
    intro k hk
    simp only [Nat.zero_min] at hk
    omega

theorem RingInv_step (cap : Nat) (hcap : 0 < cap) (t : Trace) (A : List Sample)
    (hinv : RingInv cap t A) (now mask value : Nat) :
    RingInv cap (SampleAt t now mask value)
      (if accepts t now mask value then A ++ [⟨now, mask, value⟩] else A) := by
  obtain ⟨hmax, hlen, hcur, hfm, hring, hchain⟩ := hinv
  by_cases hacc : accepts t now mask value
  · rw [if_pos hacc, sampleAt_of_accepts t now mask value hacc]
    refine ⟨hmax, ?_, ?_, ?_, ?_, ?_⟩
    · show (t.samples.set (t.cursor % t.maxSamples) ⟨now, mask, value⟩).length = cap
      simp [hlen]
    · show t.cursor + 1 = (A ++ [Sample.mk now mask value]).length
      simp [hcur]
    · show t.fullMask ||| mask =
        (A ++ [Sample.mk now mask value]).foldl (fun acc s => acc ||| s.mask) 0
      rw [List.foldl_append, ← hfm]
      rfl
    · intro k hk
      have hk' : k < t.cursor + 1 ∧ k < cap := Nat.lt_min.mp hk
      show (t.samples.set (t.cursor % t.maxSamples) ⟨now, mask, value⟩).getD
          ((t.cursor + 1 - 1 - k) % cap) default =
        (A ++ [Sample.mk now mask value]).getD
          ((A ++ [Sample.mk now mask value]).length - 1 - k) default
      rw [hmax]
      have hidx : t.cursor + 1 - 1 - k = t.cursor - k := by omega
      rw [hidx]
      cases k with
      | zero =>
          have hlt : t.cursor % cap < (t.samples.set (t.cursor % cap)
              (Sample.mk now mask value)).length := by
            simp only [List.length_set, hlen]
            exact Nat.mod_lt _ hcap
          rw [show t.cursor - 0 = t.cursor from rfl,
            List.getD_eq_getElem _ _ hlt, List.getElem_set_self]
          have hridx : (A ++ [Sample.mk now mask value]).length - 1 - 0 = A.length := by
            simp
          rw [hridx, List.getD_eq_getElem _ _ (by simp),
            List.getElem_append_right (Nat.le_refl _)]
          simp
      | succ k' =>
          have hk1 : k' + 1 ≤ t.cursor := by omega
          have hkcap : k' + 1 < cap := hk'.2
          have hcpos : 1 ≤ t.cursor := by omega
          have hneq : t.cursor % cap ≠ (t.cursor - (k' + 1)) % cap := by
            intro heq
            have hmodeq : Nat.ModEq cap (t.cursor - (k' + 1)) t.cursor := heq.symm
            have hdvd : (cap : Int) ∣ (t.cursor : Int) - ((t.cursor - (k' + 1) : Nat) : Int) :=
              hmodeq.dvd
            rw [Nat.cast_sub hk1] at hdvd
            have hdvd' : (cap : Int) ∣ ((k' + 1 : Nat) : Int) := by
              have : (t.cursor : Int) - ((t.cursor : Int) - ((k' + 1 : Nat) : Int)) =
                  ((k' + 1 : Nat) : Int) := by ring
              rwa [this] at hdvd
            have : cap ∣ k' + 1 := Int.natCast_dvd_natCast.mp hdvd'
            have := Nat.le_of_dvd (by omega) this
            omega
          have hltset : (t.cursor - (k' + 1)) % cap <
              (t.samples.set (t.cursor % cap) (Sample.mk now mask value)).length := by
            simp only [List.length_set, hlen]
            exact Nat.mod_lt _ hcap
          rw [List.getD_eq_getElem _ _ hltset, List.getElem_set_ne hneq]
          have hold := hring k' (Nat.lt_min.mpr ⟨by omega, by omega⟩)
          have hidx2 : t.cursor - 1 - k' = t.cursor - (k' + 1) := by omega
          rw [hidx2] at hold
          rw [← List.getD_eq_getElem _ _ (by
            simp only [List.length_set, hlen] at hltset ⊢
            exact hltset), hold]
          have hALen : 1 ≤ A.length := by omega
          have hridx : (A ++ [Sample.mk now mask value]).length - 1 - (k' + 1) =
              A.length - 1 - k' := by
            simp only [List.length_append, List.length_cons, List.length_nil]
            omega
          rw [hridx, List.getD_append _ _ _ _ (by omega)]
    · show List.Chain' (fun a b => a.when < b.when) (A ++ [Sample.mk now mask value])
      rw [List.chain'_append]
      refine ⟨hchain, List.chain'_singleton _, ?_⟩
      intro a ha y hy
      simp only [List.head?_cons, Option.mem_def, Option.some.injEq] at hy
      subst hy
      cases hA : A with
      | nil => rw [hA] at ha; simp at ha
      | cons a0 A' =>
          have hApos : 1 ≤ A.length := by rw [hA]; simp
          have hcpos : 1 ≤ t.cursor := by omega
          rcases hacc with hc0 | ⟨hlt, -⟩
          · omega
          · have hslot : lastSlot t = A.getD (A.length - 1) default := by
              unfold lastSlot
              rw [hmax]
              have h1 : t.cursor + cap - 1 = (t.cursor - 1) + cap := by omega
              rw [h1, Nat.add_mod_right]
              have := hring 0 (Nat.lt_min.mpr ⟨by omega, by omega⟩)
              simpa using this
            have hgl : a = A.getD (A.length - 1) default := by
              rw [List.getLast?_eq_getElem?] at ha
              have hlt' : A.length - 1 < A.length := by omega
              rw [List.getElem?_eq_getElem hlt'] at ha
              simp only [Option.mem_def, Option.some.injEq] at ha
              rw [← ha, List.getD_eq_getElem _ _ hlt']
            show a.when < now
            rw [hgl, ← hslot]
            exact hlt
  · rw [if_neg hacc, sampleAt_of_not_accepts t now mask value hacc]
    exact ⟨hmax, hlen, hcur, hfm, hring, hchain⟩

theorem RingInv_run (cap : Nat) (hcap : 0 < cap) :
    ∀ (inputs : List (Nat × Nat × Nat)) (t : Trace) (A : List Sample),
      RingInv cap t A →
      RingInv cap (runTrace t inputs) (A ++ acceptedOf t inputs) := by
  intro inputs
  induction inputs with
  | nil => intro t A h; simpa [runTrace, acceptedOf] using h
  | cons x rest ih =>
      intro t A h
      obtain ⟨now, m, v⟩ := x
      show RingInv cap (runTrace (SampleAt t now m v) rest) _
      by_cases hacc : accepts t now m v
      · have hstep := RingInv_step cap hcap t A h now m v
        rw [if_pos hacc] at hstep
        have hrun := ih (SampleAt t now m v) (A ++ [⟨now, m, v⟩]) hstep
        simpa [acceptedOf, hacc] using hrun
      · have hsame := sampleAt_of_not_accepts t now m v hacc
        rw [hsame]
        simpa [acceptedOf, hacc] using ih t A h

/-- C6: from a freshly constructed trace, after any sequence of `SampleAt`
calls the cursor equals the number of accepted samples (it never decreases
and advances by exactly one per accepted sample), `fullMask` equals the OR
of every accepted sample's mask (bits are never cleared), and the ring
holds the last `min cursor capacity` accepted samples in chronological
order with strictly increasing timestamps. -/
theorem trace_ring_invariants (app : String) (cap : Nat) (t0 : Trace)
    (inputs : List (Nat × Nat × Nat)) (hcap : 0 < cap)
    (h0 : NewTrace app cap = some t0) :
    (∀ (t : Trace) (now mask value : Nat),
      t.cursor ≤ (SampleAt t now mask value).cursor) ∧
    (∀ (t : Trace) (now mask value : Nat), accepts t now mask value →
      (SampleAt t now mask value).cursor = t.cursor + 1) ∧
    RingInv cap (runTrace t0 inputs) (acceptedOf t0 inputs) := by
  refine ⟨cursor_le_sampleAt, cursor_sampleAt_of_accepts, ?_⟩
  have hrun := RingInv_run cap hcap inputs t0 [] (RingInv_init app cap t0 h0)
  simpa using hrun

/-- A fresh two-slot trace, as built by `NewTrace "w" 2`. -/
def tRun0 : Trace where
  app := "w"
  module := ""
  samples := List.replicate 2 default
  maxSamples := 2
  cursor := 0
  fullMask := 0
  labels := []
  changes := []

/-- A sample sequence exercising accept, duplicate-reject, ring wrap and
out-of-order-reject. -/
def runInputs : List (Nat × Nat × Nat) :=
  [(1, 1, 1), (1, 1, 0), (2, 1, 0), (3, 3, 2), (2, 9, 9)]

theorem trace_ring_invariants_witness :
    0 < 2 ∧ NewTrace "w" 2 = some tRun0 ∧
    tRun0.cursor ≤ (SampleAt tRun0 1 1 1).cursor ∧
    RingInv 2 (runTrace tRun0 runInputs) (acceptedOf tRun0 runInputs) :=
  ⟨by decide, by rfl,
    (trace_ring_invariants "w" 2 tRun0 runInputs (by decide) (by rfl)).1 tRun0 1 1 1,
    (trace_ring_invariants "w" 2 tRun0 runInputs (by decide) (by rfl)).2.2⟩

end IoTracer
